import Mathlib

/-!
Verification of the morphing and Fisher-information subsystems of madminer,
modelled over exact rational arithmetic. The repository ships only the
notebooks that call the library (`MadMiner.add_parameter`, `add_benchmark`,
`set_morphing`, `FisherInformation.calculate_fisher_information_full_detector`,
`project_information`, `profile_information`, `EnsembleForge`), so the
algorithmic core is reconstructed here from the specification and checked
against its stated properties.
-/

namespace MadMiner

open Matrix

/-- Modelled from the spec: the error taxonomy of §7 (ConfigurationError,
NumericalDegeneracyError, InputMismatchError); the library code raising these
is not part of the repository snapshot. -/
inductive MadError where
  | configurationError : MadError
  | numericalDegeneracyError : MadError
  | inputMismatchError : MadError
deriving DecidableEq, Repr

/-! ### Morphing weight calculator (spec §4.2, data model §3)

A frozen configuration has `npar` registered parameters and `m` benchmarks,
with `m` monomial components; `M[i][j]` is component `j` evaluated at
benchmark `i`. -/

/-- Modelled from the spec: a frozen morphing configuration — the fixed
ordering of `m` monomial components (exponent vectors) and `m` benchmarks
(a rational value for every registered parameter); the `Morpher` class is
not part of the repository snapshot. -/
structure MorphingConfig (npar m : ℕ) where
  components : Fin m → Fin npar → ℕ
  benchmarks : Fin m → Fin npar → ℚ

/-- Modelled from the spec: the value of the monomial with exponent vector
`e` at parameter point `θ`. -/
def monomial {npar : ℕ} (θ : Fin npar → ℚ) (e : Fin npar → ℕ) : ℚ :=
  ∏ k, θ k ^ e k

/-- Modelled from the spec: the morphing matrix `M` with
`M[i][j]` = component `j` evaluated at benchmark `i`. -/
def morphing_matrix {npar m : ℕ} (c : MorphingConfig npar m) :
    Matrix (Fin m) (Fin m) ℚ :=
  Matrix.of fun i j => monomial (c.benchmarks i) (c.components j)

/-- Modelled from the spec: the coefficient vector `c` of §4.2 — every
monomial component evaluated at `θ`. -/
def component_vector {npar m : ℕ} (c : MorphingConfig npar m)
    (θ : Fin npar → ℚ) : Fin m → ℚ :=
  fun j => monomial θ (c.components j)

/-- Executable matrix inverse over ℚ via the adjugate; agrees with Mathlib's
noncomputable `A⁻¹` (see `qInverse_eq_inv`). -/
def qInverse {ι : Type} [Fintype ι] [DecidableEq ι]
    (A : Matrix ι ι ℚ) : Matrix ι ι ℚ :=
  A.det⁻¹ • A.adjugate

theorem qInverse_eq_inv {ι : Type} [Fintype ι] [DecidableEq ι]
    (A : Matrix ι ι ℚ) : qInverse A = A⁻¹ := by
  rw [Matrix.inv_def, Ring.inverse_eq_inv, qInverse]

/-- Modelled from the spec: `morphing_weights(θ)` of §4.2 — evaluate every
monomial component at `θ` to form the coefficient vector and return
`inverse(M)^T · c`. -/
def morphing_weights {npar m : ℕ} (c : MorphingConfig npar m)
    (θ : Fin npar → ℚ) : Fin m → ℚ :=
  (qInverse (morphing_matrix c))ᵀ *ᵥ component_vector c θ

theorem component_vector_benchmark {npar m : ℕ} (c : MorphingConfig npar m)
    (i : Fin m) :
    component_vector c (c.benchmarks i) = fun j => morphing_matrix c i j :=
  rfl

/-- C1: For every benchmark `b_i` of a frozen configuration (with invertible
morphing matrix), the morphing weights at `b_i`'s own parameter point are
exactly the one-hot (Kronecker-delta) vector selecting index `i` — exact
interpolation over ℚ, hence within any floating tolerance; never a
least-squares approximation. -/
theorem morphing_weights_at_benchmark_one_hot {npar m : ℕ}
    (c : MorphingConfig npar m) (h : (morphing_matrix c).det ≠ 0)
    (i : Fin m) :
    morphing_weights c (c.benchmarks i) = Pi.single i (1 : ℚ) := by
  funext j
  have hunit : IsUnit (morphing_matrix c).det := isUnit_iff_ne_zero.mpr h
  have hmul : morphing_matrix c * (morphing_matrix c)⁻¹ = 1 :=
    Matrix.mul_nonsing_inv _ hunit
  have : morphing_weights c (c.benchmarks i) j
      = (morphing_matrix c * (morphing_matrix c)⁻¹) i j := by
    rw [Matrix.mul_apply]
    simp only [morphing_weights, qInverse_eq_inv, component_vector_benchmark,
      Matrix.mulVec, Matrix.dotProduct, Matrix.transpose_apply]
    exact Finset.sum_congr rfl fun k _ => mul_comm _ _
  rw [this, hmul, Matrix.one_apply, Pi.single_apply]
  by_cases hij : i = j
  · simp [hij]
  · rw [if_neg hij, if_neg fun h' => hij h'.symm]

/-- Concrete frozen configuration used as a witness: one parameter, two
benchmarks at 0 and 1, components `1` and `θ`. -/
def cfgExample : MorphingConfig 1 2 where
  components := ![![0], ![1]]
  benchmarks := ![![0], ![1]]

theorem morphing_weights_at_benchmark_one_hot_witness :
    (morphing_matrix cfgExample).det ≠ 0 ∧
      morphing_weights cfgExample (cfgExample.benchmarks 0)
        = Pi.single 0 (1 : ℚ) := by
  have hdet : (morphing_matrix cfgExample).det ≠ 0 := by
    rw [Matrix.det_fin_two]
    norm_num [morphing_matrix, monomial, cfgExample]
  exact ⟨hdet, morphing_weights_at_benchmark_one_hot cfgExample hdet 0⟩

/-- Modelled from the spec: the `weights(theta)` contract returns a plain
vector (list) of rationals, one entry per benchmark. -/
def morphing_weights_list {npar m : ℕ} (c : MorphingConfig npar m)
    (θ : Fin npar → ℚ) : List ℚ :=
  List.ofFn (morphing_weights c θ)

/-- C2: For every parameter point `θ` (with invertible morphing matrix `M`),
`weights(θ)` has length = number of benchmarks, equals `inverse(M)^T · c`
where `c` is the vector of all monomial components evaluated at `θ`, and is
the unique solution `w` of `M^T w = c`. -/
theorem morphing_weights_spec {npar m : ℕ} (c : MorphingConfig npar m)
    (θ : Fin npar → ℚ) (h : (morphing_matrix c).det ≠ 0) :
    (morphing_weights_list c θ).length = m
      ∧ morphing_weights c θ = (morphing_matrix c)⁻¹ᵀ *ᵥ component_vector c θ
      ∧ (morphing_matrix c)ᵀ *ᵥ morphing_weights c θ = component_vector c θ
      ∧ ∀ w : Fin m → ℚ, (morphing_matrix c)ᵀ *ᵥ w = component_vector c θ →
          w = morphing_weights c θ := by
  have hunit : IsUnit (morphing_matrix c).det := isUnit_iff_ne_zero.mpr h
  have hform : morphing_weights c θ
      = (morphing_matrix c)⁻¹ᵀ *ᵥ component_vector c θ := by
    rw [morphing_weights, qInverse_eq_inv]
  refine ⟨by simp [morphing_weights_list], hform, ?_, ?_⟩
  · rw [hform, Matrix.mulVec_mulVec, ← Matrix.transpose_mul,
      Matrix.nonsing_inv_mul _ hunit, Matrix.transpose_one, Matrix.one_mulVec]
  · intro w hw
    have hunitT : IsUnit (morphing_matrix c)ᵀ.det := by
      rwa [Matrix.det_transpose]
    have := congrArg (fun v => ((morphing_matrix c)ᵀ)⁻¹ *ᵥ v) hw
    simp only [Matrix.mulVec_mulVec, Matrix.nonsing_inv_mul _ hunitT,
      Matrix.one_mulVec] at this
    rw [this, hform, Matrix.transpose_nonsing_inv]

theorem morphing_weights_spec_witness :
    (morphing_matrix cfgExample).det ≠ 0 ∧
      ((morphing_weights_list cfgExample (fun _ => 2)).length = 2
        ∧ morphing_weights cfgExample (fun _ => 2)
            = (morphing_matrix cfgExample)⁻¹ᵀ
                *ᵥ component_vector cfgExample (fun _ => 2)
        ∧ (morphing_matrix cfgExample)ᵀ *ᵥ morphing_weights cfgExample (fun _ => 2)
            = component_vector cfgExample (fun _ => 2)
        ∧ ∀ w : Fin 2 → ℚ,
            (morphing_matrix cfgExample)ᵀ *ᵥ w
              = component_vector cfgExample (fun _ => 2) →
            w = morphing_weights cfgExample (fun _ => 2)) := by
  have hdet : (morphing_matrix cfgExample).det ≠ 0 := by
    rw [Matrix.det_fin_two]
    norm_num [morphing_matrix, monomial, cfgExample]
  exact ⟨hdet, morphing_weights_spec cfgExample (fun _ => 2) hdet⟩

/-! ### Component enumeration and basis optimizer (spec §3, §4.1)

The optimizer side works on plain lists: a parameter point is a list of
rational values (one per registered parameter, in the fixed global
ordering), a component is a list of exponents. -/

/-- Modelled from the spec: all exponent vectors with the exponent of
parameter `k` bounded by its maximal individual power `ps[k]`. -/
def exponent_tuples : List ℕ → List (List ℕ)
  | [] => [[]]
  | p :: ps =>
    (List.range (p + 1)).flatMap fun e =>
      (exponent_tuples ps).map fun es => e :: es

/-- Modelled from the spec: the fixed, once-enumerated component set — all
exponent vectors respecting each parameter's maximal power whose total
degree does not exceed the overall maximal power. -/
def componentsFor (ps : List ℕ) (maxOverall : ℕ) : List (List ℕ) :=
  (exponent_tuples ps).filter fun e => e.sum ≤ maxOverall

/-- Modelled from the spec: freezing a basis requires at least as many
benchmarks as components; an under-determined basis fails fast with
`ConfigurationError`. -/
def check_basis (ncomponents : ℕ) (benchmarks : List (List ℚ)) :
    Except MadError Unit :=
  if benchmarks.length < ncomponents then
    Except.error MadError.configurationError
  else Except.ok ()

/-- C3: With 2 registered parameters of individual maximal power 2 and
overall maximal power 2, exactly the 6 components
`1, θ2, θ2², θ1, θ1·θ2, θ1²` are enumerated, and freezing a basis with
fewer than 6 benchmarks raises `ConfigurationError`. -/
theorem components_two_parameters_six (bs : List (List ℚ))
    (hbs : bs.length < 6) :
    (componentsFor [2, 2] 2).length = 6
      ∧ componentsFor [2, 2] 2
          = [[0, 0], [0, 1], [0, 2], [1, 0], [1, 1], [2, 0]]
      ∧ check_basis (componentsFor [2, 2] 2).length bs
          = Except.error MadError.configurationError := by
  refine ⟨by decide, by decide, ?_⟩
  have h6 : (componentsFor [2, 2] 2).length = 6 := by decide
  rw [check_basis, h6, if_pos hbs]

theorem components_two_parameters_six_witness :
    (List.replicate 5 ([0, 0] : List ℚ)).length < 6
      ∧ ((componentsFor [2, 2] 2).length = 6
        ∧ componentsFor [2, 2] 2
            = [[0, 0], [0, 1], [0, 2], [1, 0], [1, 1], [2, 0]]
        ∧ check_basis (componentsFor [2, 2] 2).length
              (List.replicate 5 ([0, 0] : List ℚ))
            = Except.error MadError.configurationError) :=
  ⟨by decide, components_two_parameters_six _ (by decide)⟩

/-- Modelled from the spec: the monomial value of exponent vector `e` at a
parameter point given as a list (componentwise power, then product). -/
def monomialL (θ : List ℚ) (e : List ℕ) : ℚ :=
  (List.zipWith (fun t p => t ^ p) θ e).prod

/-- Modelled from the spec: the `m × m` morphing matrix of a candidate basis
given as a list of benchmark points, over component list `comps`. -/
def matrix_of_lists (m : ℕ) (comps : List (List ℕ)) (bench : List (List ℚ)) :
    Matrix (Fin m) (Fin m) ℚ :=
  Matrix.of fun i j => monomialL (bench.getD i []) (comps.getD j [])

/-- Modelled from the spec: a candidate basis is admissible when it has one
benchmark per component and a non-singular morphing matrix. -/
def candidate_valid (m : ℕ) (comps : List (List ℕ)) (b : List (List ℚ)) :
    Bool :=
  decide (b.length = m) && decide ((matrix_of_lists m comps b).det ≠ 0)

/-- Modelled from the spec: min-error selection among scored candidates. -/
def pick_best (score : List (List ℚ) → ℚ) (c : List (List ℚ))
    (cs : List (List (List ℚ))) : List (List ℚ) :=
  cs.foldl (fun best cand => if score cand < score best then cand else best) c

/-- Modelled from the spec: `set_morphing` — every trial contributes the
candidate basis `fixed ++ trial` (user-supplied benchmarks are kept, only
the remaining slots are filled); inadmissible candidates are discarded; if
no candidate is admissible the optimizer fails with `ConfigurationError`,
otherwise the candidate minimizing the error functional `score` is frozen. -/
def set_morphing (ps : List ℕ) (maxOverall : ℕ) (fixed : List (List ℚ))
    (trials : List (List (List ℚ))) (score : List (List ℚ) → ℚ) :
    Except MadError (List (List ℚ)) :=
  match (trials.map fun t => fixed ++ t).filter
      (fun b => candidate_valid (componentsFor ps maxOverall).length
        (componentsFor ps maxOverall) b) with
  | [] => Except.error MadError.configurationError
  | c :: cs => Except.ok (pick_best score c cs)

theorem pick_best_mem (score : List (List ℚ) → ℚ) :
    ∀ (cs : List (List (List ℚ))) (c : List (List ℚ)),
      pick_best score c cs ∈ c :: cs := by
  intro cs
  induction cs with
  | nil => intro c; simp [pick_best]
  | cons d ds ih =>
    intro c
    have : pick_best score c (d :: ds)
        = pick_best score (if score d < score c then d else c) ds := by
      rw [pick_best, pick_best, List.foldl_cons]
    rw [this]
    rcases List.mem_cons.mp (ih (if score d < score c then d else c)) with h | h
    · rw [h]
      by_cases hlt : score d < score c
      · rw [if_pos hlt]
        exact List.mem_cons_of_mem _ (List.mem_cons_self d ds)
      · rw [if_neg hlt]
        exact List.mem_cons_self c (d :: ds)
    · exact List.mem_cons_of_mem _ (List.mem_cons_of_mem _ h)

/-- C9: Basis optimization never alters a user-supplied (fixed) benchmark:
whenever `set_morphing` succeeds, the fixed benchmarks appear unchanged, at
their original parameter points and positions, at the head of the returned
basis, and only the remaining slots come from the randomized trial. -/
theorem set_morphing_keeps_fixed (ps : List ℕ) (maxOverall : ℕ)
    (fixed : List (List ℚ)) (trials : List (List (List ℚ)))
    (score : List (List ℚ) → ℚ) (basis : List (List ℚ))
    (h : set_morphing ps maxOverall fixed trials score = Except.ok basis) :
    basis.take fixed.length = fixed ∧ ∀ b ∈ fixed, b ∈ basis := by
  have hmem : basis ∈ (trials.map fun t => fixed ++ t).filter
      (fun b => candidate_valid (componentsFor ps maxOverall).length
        (componentsFor ps maxOverall) b) := by
    rw [set_morphing] at h
    split at h
    · exact absurd h (by simp)
    · next c cs heq =>
      have hb : basis = pick_best score c cs := (Except.ok.injEq _ _).mp h.symm
      rw [heq, hb]
      exact pick_best_mem score cs c
  have hcand : basis ∈ trials.map fun t => fixed ++ t :=
    List.mem_of_mem_filter hmem
  obtain ⟨t, _, ht⟩ := List.mem_map.mp hcand
  constructor
  · rw [← ht]
    exact List.take_left fixed t
  · intro b hb
    rw [← ht]
    exact List.mem_append_left t hb

theorem set_morphing_keeps_fixed_witness :
    set_morphing [1] 1 [[(0 : ℚ)]] [[[1]]] (fun _ => 0)
        = Except.ok [[(0 : ℚ)], [1]]
      ∧ ([[(0 : ℚ)], [1]].take ([[(0 : ℚ)]] : List (List ℚ)).length
          = [[(0 : ℚ)]]
        ∧ ∀ b ∈ [[(0 : ℚ)]], b ∈ [[(0 : ℚ)], [1]]) := by
  have hlen : (componentsFor [1] 1).length = 2 := by decide
  have hc0 : (componentsFor [1] 1).getD 0 [] = [0] := by decide
  have hc1 : (componentsFor [1] 1).getD 1 [] = [1] := by decide
  have hdet : (matrix_of_lists 2 (componentsFor [1] 1) [[(0 : ℚ)], [1]]).det
      = 1 := by
    rw [Matrix.det_fin_two]
    simp only [matrix_of_lists, Matrix.of_apply, Fin.val_zero, Fin.val_one,
      List.getD_cons_zero, List.getD_cons_succ, hc0, hc1]
    norm_num [monomialL]
  have hvalid : candidate_valid 2 (componentsFor [1] 1) [[(0 : ℚ)], [1]]
      = true := by
    simp only [candidate_valid, Bool.and_eq_true, decide_eq_true_eq]
    exact ⟨by decide, by rw [hdet]; exact one_ne_zero⟩
  have hrun : set_morphing [1] 1 [[(0 : ℚ)]] [[[1]]] (fun _ => 0)
      = Except.ok [[(0 : ℚ)], [1]] := by
    simp only [set_morphing, hlen, List.map_cons, List.map_nil,
      List.cons_append, List.nil_append, List.filter, hvalid, pick_best,
      List.foldl_nil]
  exact ⟨hrun, set_morphing_keeps_fixed [1] 1 _ _ _ _ hrun⟩

/-! ### Fisher information: projection and profiling (spec §4.3) -/

/-- Modelled from the spec: `project_information(I, S)` — the principal
submatrix of `I` on the parameter indices in `S`, the subset being given by
its enumeration `f` (the list of selected indices, as in the library call
`project_information(fisher_information, remaining_components)`). -/
def project_information {n k : ℕ} (I : Matrix (Fin n) (Fin n) ℚ)
    (f : Fin k → Fin n) : Matrix (Fin k) (Fin k) ℚ :=
  I.submatrix f f

/-- C5: `project_information` is the principal submatrix on the selected
indices, and projecting twice — first to `S`, then restricting that output
further to a nested `S' ⊆ S` — equals projecting directly to `S'` in one
step. -/
theorem project_information_nested {n k l : ℕ}
    (I : Matrix (Fin n) (Fin n) ℚ) (f : Fin k → Fin n) (g : Fin l → Fin k) :
    project_information (project_information I f) g
        = project_information I (f ∘ g)
      ∧ ∀ i j, project_information I f i j = I (f i) (f j) := by
  constructor
  · rw [project_information, project_information, project_information,
      Matrix.submatrix_submatrix]
  · intro i j
    rfl

/-- Modelled from the spec: `profile_information(I, S)` — the Schur
complement `I_SS − I_S,S̄ · I_S̄S̄⁻¹ · I_S̄,S` over the complement `S̄` of the
kept subset `S`, failing with a numerical-degeneracy error when the
nuisance block `I_S̄S̄` is singular. -/
def profile_information {n : ℕ} (I : Matrix (Fin n) (Fin n) ℚ)
    (S : Finset (Fin n)) :
    Except MadError (Matrix {x // x ∈ S} {x // x ∈ S} ℚ) :=
  if (I.submatrix (fun x : {x // x ∈ Sᶜ} => x.val)
      (fun x : {x // x ∈ Sᶜ} => x.val)).det = 0 then
    Except.error MadError.numericalDegeneracyError
  else
    Except.ok
      (I.submatrix (fun x : {x // x ∈ S} => x.val)
          (fun x : {x // x ∈ S} => x.val)
        - I.submatrix (fun x : {x // x ∈ S} => x.val)
            (fun x : {x // x ∈ Sᶜ} => x.val)
          * qInverse (I.submatrix (fun x : {x // x ∈ Sᶜ} => x.val)
              (fun x : {x // x ∈ Sᶜ} => x.val))
          * I.submatrix (fun x : {x // x ∈ Sᶜ} => x.val)
              (fun x : {x // x ∈ S} => x.val))

/-- C4: Whenever the nuisance block `I_S̄S̄` is invertible,
`profile_information(I, S)` returns the Schur complement
`I_SS − I_S,S̄ · I_S̄S̄⁻¹ · I_S̄,S`; when `I_S̄S̄` is singular it fails with a
numerical-degeneracy error instead of returning a value. -/
theorem profile_information_schur {n : ℕ} (I : Matrix (Fin n) (Fin n) ℚ)
    (S : Finset (Fin n))
    (h : (I.submatrix (fun x : {x // x ∈ Sᶜ} => x.val)
      (fun x : {x // x ∈ Sᶜ} => x.val)).det ≠ 0) :
    profile_information I S
        = Except.ok
            (I.submatrix (fun x : {x // x ∈ S} => x.val)
                (fun x : {x // x ∈ S} => x.val)
              - I.submatrix (fun x : {x // x ∈ S} => x.val)
                  (fun x : {x // x ∈ Sᶜ} => x.val)
                * (I.submatrix (fun x : {x // x ∈ Sᶜ} => x.val)
                    (fun x : {x // x ∈ Sᶜ} => x.val))⁻¹
                * I.submatrix (fun x : {x // x ∈ Sᶜ} => x.val)
                    (fun x : {x // x ∈ S} => x.val))
      ∧ ∀ J : Matrix (Fin n) (Fin n) ℚ,
          (J.submatrix (fun x : {x // x ∈ Sᶜ} => x.val)
            (fun x : {x // x ∈ Sᶜ} => x.val)).det = 0 →
          profile_information J S
            = Except.error MadError.numericalDegeneracyError := by
  constructor
  · rw [profile_information, if_neg h, qInverse_eq_inv]
  · intro J hJ
    rw [profile_information, if_pos hJ]

theorem profile_information_schur_witness :
    ((1 : Matrix (Fin 2) (Fin 2) ℚ).submatrix
        (fun x : {x // x ∈ ({0} : Finset (Fin 2))ᶜ} => x.val)
        (fun x : {x // x ∈ ({0} : Finset (Fin 2))ᶜ} => x.val)).det ≠ 0
      ∧ profile_information (1 : Matrix (Fin 2) (Fin 2) ℚ)
            ({0} : Finset (Fin 2))
          = Except.ok
              ((1 : Matrix (Fin 2) (Fin 2) ℚ).submatrix
                  (fun x : {x // x ∈ ({0} : Finset (Fin 2))} => x.val)
                  (fun x : {x // x ∈ ({0} : Finset (Fin 2))} => x.val)
                - (1 : Matrix (Fin 2) (Fin 2) ℚ).submatrix
                    (fun x : {x // x ∈ ({0} : Finset (Fin 2))} => x.val)
                    (fun x : {x // x ∈ ({0} : Finset (Fin 2))ᶜ} => x.val)
                  * ((1 : Matrix (Fin 2) (Fin 2) ℚ).submatrix
                      (fun x : {x // x ∈ ({0} : Finset (Fin 2))ᶜ} => x.val)
                      (fun x : {x // x ∈ ({0} : Finset (Fin 2))ᶜ} => x.val))⁻¹
                  * (1 : Matrix (Fin 2) (Fin 2) ℚ).submatrix
                    (fun x : {x // x ∈ ({0} : Finset (Fin 2))ᶜ} => x.val)
                    (fun x : {x // x ∈ ({0} : Finset (Fin 2))} => x.val)) := by
  have hdet : ((1 : Matrix (Fin 2) (Fin 2) ℚ).submatrix
      (fun x : {x // x ∈ ({0} : Finset (Fin 2))ᶜ} => x.val)
      (fun x : {x // x ∈ ({0} : Finset (Fin 2))ᶜ} => x.val)).det ≠ 0 := by
    rw [Matrix.submatrix_one _ (fun a b hab => Subtype.ext hab),
      Matrix.det_one]
    exact one_ne_zero
  exact ⟨hdet,
    (profile_information_schur (1 : Matrix (Fin 2) (Fin 2) ℚ) {0} hdet).1⟩

/-! ### Fisher information accumulation (spec §4.3) -/

/-- Modelled from the spec: one event's data — a probability density and a
score vector (gradient of the log weight), both functions of the parameter
point `θ`. -/
structure FisherEvent (p : ℕ) where
  density : (Fin p → ℚ) → ℚ
  score : (Fin p → ℚ) → Fin p → ℚ

/-- The outer product `s sᵀ` of a score vector with itself. -/
def outer_product {p : ℕ} (s : Fin p → ℚ) : Matrix (Fin p) (Fin p) ℚ :=
  Matrix.of fun i j => s i * s j

/-- Modelled from the spec: `accumulate_fisher_information` — per event, the
outer product of the score with itself, weighted by the event's probability
density and the target luminosity, summed over events. -/
def accumulate_fisher_information {p : ℕ} :
    List (FisherEvent p) → (Fin p → ℚ) → ℚ → Matrix (Fin p) (Fin p) ℚ
  | [], _, _ => 0
  | e :: es, θ, L =>
    (L * e.density θ) • outer_product (e.score θ)
      + accumulate_fisher_information es θ L

/-- C6: Fisher-information accumulation is linear in the luminosity scalar —
doubling the luminosity doubles every entry of the resulting matrix. -/
theorem accumulate_fisher_information_luminosity_linear {p : ℕ}
    (events : List (FisherEvent p)) (θ : Fin p → ℚ) (L : ℚ) (i j : Fin p) :
    accumulate_fisher_information events θ (2 * L) i j
      = 2 * accumulate_fisher_information events θ L i j := by
  induction events with
  | nil => simp [accumulate_fisher_information]
  | cons e es ih =>
    simp only [accumulate_fisher_information, Matrix.add_apply,
      Matrix.smul_apply, smul_eq_mul]
    rw [ih]
    ring

theorem outer_product_transpose {p : ℕ} (s : Fin p → ℚ) :
    (outer_product s)ᵀ = outer_product s := by
  funext i j
  simp [outer_product, Matrix.transpose_apply, mul_comm]

theorem accumulate_fisher_information_transpose {p : ℕ}
    (events : List (FisherEvent p)) (θ : Fin p → ℚ) (L : ℚ) :
    (accumulate_fisher_information events θ L)ᵀ
      = accumulate_fisher_information events θ L := by
  induction events with
  | nil => simp [accumulate_fisher_information]
  | cons e es ih =>
    simp only [accumulate_fisher_information, Matrix.transpose_add,
      Matrix.transpose_smul, outer_product_transpose, ih]

theorem dot_outer_product {p : ℕ} (s x : Fin p → ℚ) :
    x ⬝ᵥ (outer_product s *ᵥ x) = (s ⬝ᵥ x) * (s ⬝ᵥ x) := by
  simp only [Matrix.dotProduct, Matrix.mulVec, outer_product, Matrix.of_apply]
  calc
    ∑ i, x i * ∑ j, s i * s j * x j
        = ∑ i, ∑ j, (s i * x i) * (s j * x j) := by
          refine Finset.sum_congr rfl fun i _ => ?_
          rw [Finset.mul_sum]
          exact Finset.sum_congr rfl fun j _ => by ring
    _ = (∑ i, s i * x i) * ∑ j, s j * x j := by
          rw [Finset.sum_mul_sum]

theorem accumulate_fisher_information_quad_nonneg {p : ℕ}
    (events : List (FisherEvent p)) (θ : Fin p → ℚ) (L : ℚ) (hL : 0 ≤ L)
    (hd : ∀ e ∈ events, 0 ≤ e.density θ) (x : Fin p → ℚ) :
    0 ≤ x ⬝ᵥ (accumulate_fisher_information events θ L *ᵥ x) := by
  induction events with
  | nil => simp [accumulate_fisher_information]
  | cons e es ih =>
    have hde : 0 ≤ e.density θ := hd e (List.mem_cons_self e es)
    have hes : ∀ e' ∈ es, 0 ≤ e'.density θ :=
      fun e' he' => hd e' (List.mem_cons_of_mem e he')
    simp only [accumulate_fisher_information, Matrix.add_mulVec,
      Matrix.dotProduct_add, Matrix.smul_mulVec_assoc, Matrix.dotProduct_smul,
      smul_eq_mul]
    refine add_nonneg ?_ (ih hes)
    rw [dot_outer_product]
    exact mul_nonneg (mul_nonneg hL hde) (mul_self_nonneg _)

theorem quad_two (A : Matrix (Fin 2) (Fin 2) ℚ) (x : Fin 2 → ℚ) :
    x ⬝ᵥ (A *ᵥ x)
      = A 0 0 * (x 0 * x 0) + A 0 1 * (x 0 * x 1) + A 1 0 * (x 1 * x 0)
        + A 1 1 * (x 1 * x 1) := by
  simp [Matrix.dotProduct, Matrix.mulVec, Fin.sum_univ_two]
  ring

theorem transpose_eq_self_iff_two (A : Matrix (Fin 2) (Fin 2) ℚ) :
    Aᵀ = A ↔ A 1 0 = A 0 1 := by
  constructor
  · intro h
    exact congrFun (congrFun h 0) 1
  · intro h
    funext i j
    fin_cases i <;> fin_cases j <;>
      simp_all [Matrix.transpose_apply]

theorem psd_two_iff_minors (A : Matrix (Fin 2) (Fin 2) ℚ)
    (hsym : A 1 0 = A 0 1) :
    (∀ x : Fin 2 → ℚ, 0 ≤ x ⬝ᵥ (A *ᵥ x))
      ↔ 0 ≤ A 0 0 ∧ 0 ≤ A 1 1 ∧ A 0 1 * A 1 0 ≤ A 0 0 * A 1 1 := by
  constructor
  · intro hpsd
    have h00 : 0 ≤ A 0 0 := by
      have := hpsd ![1, 0]
      rw [quad_two] at this
      simpa using this
    have h11 : 0 ≤ A 1 1 := by
      have := hpsd ![0, 1]
      rw [quad_two] at this
      simpa using this
    refine ⟨h00, h11, ?_⟩
    rw [hsym]
    by_cases ha : A 0 0 = 0
    · by_cases hb : A 0 1 = 0
      · rw [ha, hb]
        simp
      · exfalso
        have hval := hpsd ![-(A 1 1 + 1) / (2 * A 0 1), 1]
        rw [quad_two] at hval
        simp only [Matrix.cons_val_zero, Matrix.cons_val_one, Matrix.head_cons]
          at hval
        rw [ha, hsym] at hval
        have hexp : A 0 1 * (-(A 1 1 + 1) / (2 * A 0 1) * 1)
              + A 0 1 * (1 * (-(A 1 1 + 1) / (2 * A 0 1)))
              + A 1 1 * (1 * 1) = -1 := by
          field_simp
          ring
        nlinarith [hval, hexp]
    · have ha' : 0 < A 0 0 := lt_of_le_of_ne h00 (Ne.symm ha)
      have hval := hpsd ![A 0 1, -(A 0 0)]
      rw [quad_two] at hval
      simp only [Matrix.cons_val_zero, Matrix.cons_val_one, Matrix.head_cons]
        at hval
      rw [hsym] at hval
      nlinarith [hval, ha']
  · rintro ⟨h00, h11, hmin⟩ x
    rw [quad_two, hsym]
    rw [hsym] at hmin
    by_cases ha : A 0 0 = 0
    · have hb : A 0 1 = 0 := by
        have h0 : A 0 0 * A 1 1 = 0 := by rw [ha]; ring
        have hle : A 0 1 * A 0 1 ≤ 0 := by linarith [hmin, h0]
        nlinarith [mul_self_nonneg (A 0 1), hle]
      rw [ha, hb]
      have := mul_nonneg h11 (mul_self_nonneg (x 1))
      nlinarith [this]
    · have ha' : 0 < A 0 0 := lt_of_le_of_ne h00 (Ne.symm ha)
      nlinarith [sq_nonneg (A 0 0 * x 0 + A 0 1 * x 1),
        mul_nonneg (sub_nonneg.mpr hmin) (mul_self_nonneg (x 1)), ha']

/-- Modelled from the spec: the Fisher-matrix validity gate — a produced
matrix is accepted only when it is symmetric and positive semi-definite
(checked for the repository's 2-parameter space via the principal minors);
a violation is raised as `NumericalDegeneracyError`, never accepted. -/
def validate_fisher (M : Matrix (Fin 2) (Fin 2) ℚ) :
    Except MadError (Matrix (Fin 2) (Fin 2) ℚ) :=
  if M 1 0 = M 0 1 ∧ 0 ≤ M 0 0 ∧ 0 ≤ M 1 1 ∧ M 0 1 * M 1 0 ≤ M 0 0 * M 1 1
  then Except.ok M
  else Except.error MadError.numericalDegeneracyError

theorem validate_fisher_ok_iff (A : Matrix (Fin 2) (Fin 2) ℚ) :
    validate_fisher A = Except.ok A
      ↔ (Aᵀ = A ∧ ∀ x : Fin 2 → ℚ, 0 ≤ x ⬝ᵥ (A *ᵥ x)) := by
  rw [validate_fisher]
  constructor
  · intro h
    by_cases hc : A 1 0 = A 0 1 ∧ 0 ≤ A 0 0 ∧ 0 ≤ A 1 1
        ∧ A 0 1 * A 1 0 ≤ A 0 0 * A 1 1
    · exact ⟨(transpose_eq_self_iff_two A).mpr hc.1,
        (psd_two_iff_minors A hc.1).mpr hc.2⟩
    · rw [if_neg hc] at h
      exact absurd h (by simp)
  · rintro ⟨hsym, hpsd⟩
    have hs := (transpose_eq_self_iff_two A).mp hsym
    exact if_pos ⟨hs, (psd_two_iff_minors A hs).mp hpsd⟩

/-- C8: Every Fisher matrix produced by the accumulation aggregator (from
nonnegative densities and nonnegative luminosity) is symmetric and positive
semi-definite and passes the validity gate; and the gate flags exactly the
violations of symmetry or positive semi-definiteness as
`NumericalDegeneracyError`, never silently accepting them. -/
theorem fisher_aggregator_symmetric_psd (events : List (FisherEvent 2))
    (θ : Fin 2 → ℚ) (L : ℚ) (hL : 0 ≤ L)
    (hd : ∀ e ∈ events, 0 ≤ e.density θ) :
    ((accumulate_fisher_information events θ L)ᵀ
        = accumulate_fisher_information events θ L
      ∧ ∀ x : Fin 2 → ℚ,
          0 ≤ x ⬝ᵥ (accumulate_fisher_information events θ L *ᵥ x))
    ∧ validate_fisher (accumulate_fisher_information events θ L)
        = Except.ok (accumulate_fisher_information events θ L)
    ∧ ∀ A : Matrix (Fin 2) (Fin 2) ℚ,
        validate_fisher A = Except.error MadError.numericalDegeneracyError
          ↔ ¬ (Aᵀ = A ∧ ∀ x : Fin 2 → ℚ, 0 ≤ x ⬝ᵥ (A *ᵥ x)) := by
  have hsym := accumulate_fisher_information_transpose events θ L
  have hpsd := accumulate_fisher_information_quad_nonneg events θ L hL hd
  refine ⟨⟨hsym, hpsd⟩, (validate_fisher_ok_iff _).mpr ⟨hsym, hpsd⟩, ?_⟩
  intro A
  rw [← validate_fisher_ok_iff]
  rw [validate_fisher]
  by_cases hc : A 1 0 = A 0 1 ∧ 0 ≤ A 0 0 ∧ 0 ≤ A 1 1
      ∧ A 0 1 * A 1 0 ≤ A 0 0 * A 1 1
  · rw [if_pos hc]
    simp
  · rw [if_neg hc]
    simp

theorem fisher_aggregator_symmetric_psd_witness :
    (0 : ℚ) ≤ 1
      ∧ (∀ e ∈ [(⟨fun _ => 1, fun _ _ => 1⟩ : FisherEvent 2)],
          0 ≤ e.density ![0, 0])
      ∧ (((accumulate_fisher_information
            [(⟨fun _ => 1, fun _ _ => 1⟩ : FisherEvent 2)] ![0, 0] 1)ᵀ
            = accumulate_fisher_information
                [(⟨fun _ => 1, fun _ _ => 1⟩ : FisherEvent 2)] ![0, 0] 1
          ∧ ∀ x : Fin 2 → ℚ,
              0 ≤ x ⬝ᵥ (accumulate_fisher_information
                [(⟨fun _ => 1, fun _ _ => 1⟩ : FisherEvent 2)] ![0, 0] 1 *ᵥ x))
        ∧ validate_fisher (accumulate_fisher_information
              [(⟨fun _ => 1, fun _ _ => 1⟩ : FisherEvent 2)] ![0, 0] 1)
            = Except.ok (accumulate_fisher_information
                [(⟨fun _ => 1, fun _ _ => 1⟩ : FisherEvent 2)] ![0, 0] 1)
        ∧ ∀ A : Matrix (Fin 2) (Fin 2) ℚ,
            validate_fisher A = Except.error MadError.numericalDegeneracyError
              ↔ ¬ (Aᵀ = A ∧ ∀ x : Fin 2 → ℚ, 0 ≤ x ⬝ᵥ (A *ᵥ x))) := by
  refine ⟨by norm_num, ?_, ?_⟩
  · intro e he
    rw [List.mem_singleton] at he
    rw [he]
    norm_num
  · refine fisher_aggregator_symmetric_psd _ _ _ (by norm_num) ?_
    intro e he
    rw [List.mem_singleton] at he
    rw [he]
    norm_num

/-! ### Ensemble aggregation (spec §4.4) -/

/-- Modelled from the spec: the elementwise mean over an ensemble of Fisher
matrices. -/
def ensemble_mean {p : ℕ} (ms : List (Matrix (Fin p) (Fin p) ℚ)) :
    Matrix (Fin p) (Fin p) ℚ :=
  ((ms.length : ℚ))⁻¹ • ms.sum

/-- Modelled from the spec: the covariance across the ensemble of each pair
of matrix entries, each entry viewed as a scalar series over the ensemble
index. -/
def ensemble_covariance {p : ℕ} (ms : List (Matrix (Fin p) (Fin p) ℚ)) :
    Fin p → Fin p → Fin p → Fin p → ℚ :=
  fun i j k l =>
    ((ms.length : ℚ))⁻¹ *
      (ms.map fun A =>
        (A i j - ensemble_mean ms i j) * (A k l - ensemble_mean ms k l)).sum

/-- Modelled from the spec: `aggregate_ensemble` — the pair of elementwise
mean and elementwise covariance over the ensemble members. -/
def aggregate_ensemble {p : ℕ} (ms : List (Matrix (Fin p) (Fin p) ℚ)) :
    Matrix (Fin p) (Fin p) ℚ × (Fin p → Fin p → Fin p → Fin p → ℚ) :=
  (ensemble_mean ms, ensemble_covariance ms)

theorem ensemble_mean_replicate {p : ℕ} (N : ℕ) (hN : 1 ≤ N)
    (A : Matrix (Fin p) (Fin p) ℚ) :
    ensemble_mean (List.replicate N A) = A := by
  have hne : ((N : ℚ)) ≠ 0 := Nat.cast_ne_zero.mpr (by omega)
  rw [ensemble_mean, List.sum_replicate, List.length_replicate,
    ← Nat.cast_smul_eq_nsmul ℚ N A, inv_smul_smul₀ hne]

/-- C7: For every `N ≥ 1`, aggregating an ensemble of `N` identical Fisher
matrices returns that matrix as the mean and an all-zero covariance; in
particular `N = 1` is permitted and its covariance is the zero tensor. -/
theorem aggregate_ensemble_identical {p : ℕ} (N : ℕ) (hN : 1 ≤ N)
    (A : Matrix (Fin p) (Fin p) ℚ) :
    aggregate_ensemble (List.replicate N A) = (A, fun _ _ _ _ => 0) := by
  have hmean := ensemble_mean_replicate N hN A
  rw [aggregate_ensemble, hmean]
  refine Prod.ext rfl ?_
  show ensemble_covariance (List.replicate N A) = fun _ _ _ _ => 0
  funext i j k l
  rw [ensemble_covariance, hmean]
  simp [List.map_replicate, List.sum_replicate]

theorem aggregate_ensemble_identical_witness :
    1 ≤ 1
      ∧ aggregate_ensemble (List.replicate 1 (!![1, 2; 2, 4] : Matrix (Fin 2) (Fin 2) ℚ))
          = (!![1, 2; 2, 4], fun _ _ _ _ => 0) :=
  ⟨by decide, aggregate_ensemble_identical 1 (by decide) _⟩

/-! ### Ensemble-based detector-level Fisher information (spec §4.3–§4.4,
Part 6 notebook) -/

/-- Modelled from the spec: the Fisher matrix of a single trained local-score
estimator over an unweighted event sample — the same outer-product
accumulation, with the score supplied by the estimator evaluated on each
event's observables. -/
def estimator_fisher {nobs p : ℕ} (est : (Fin nobs → ℚ) → Fin p → ℚ)
    (xs : List (Fin nobs → ℚ)) (L : ℚ) : Matrix (Fin p) (Fin p) ℚ :=
  accumulate_fisher_information
    (xs.map fun x => ⟨fun _ => 1, fun _ => est x⟩) (fun _ => 0) L

/-- Modelled from the spec: `calculate_fisher_information_full_detector` with
an ensemble of score estimators — computes every member's Fisher matrix and
combines them into the aggregated `(mean, covariance)` pair inside the single
call. -/
def calculate_fisher_information_full_detector {nobs p : ℕ}
    (estimators : List ((Fin nobs → ℚ) → Fin p → ℚ))
    (xs : List (Fin nobs → ℚ)) (L : ℚ) :
    Matrix (Fin p) (Fin p) ℚ × (Fin p → Fin p → Fin p → Fin p → ℚ) :=
  aggregate_ensemble (estimators.map fun est => estimator_fisher est xs L)

/-- C10: A single call to `calculate_fisher_information_full_detector`
returns the aggregated `(mean Fisher matrix, covariance)` pair directly: it
equals the ensemble aggregation of the per-member Fisher matrices, with the
mean as first and the covariance as second component — the caller never has
to invoke a separate ensemble-aggregation step. -/
theorem calculate_full_detector_aggregates {nobs p : ℕ}
    (estimators : List ((Fin nobs → ℚ) → Fin p → ℚ))
    (xs : List (Fin nobs → ℚ)) (L : ℚ) :
    calculate_fisher_information_full_detector estimators xs L
        = aggregate_ensemble
            (estimators.map fun est => estimator_fisher est xs L)
      ∧ (calculate_fisher_information_full_detector estimators xs L).1
          = ensemble_mean (estimators.map fun est => estimator_fisher est xs L)
      ∧ (calculate_fisher_information_full_detector estimators xs L).2
          = ensemble_covariance
              (estimators.map fun est => estimator_fisher est xs L) :=
  ⟨rfl, rfl, rfl⟩

end MadMiner
